import Mathlib

/-!
Verification of the MacroKit vintage ingestion and revision engine.

The definitions below are a shallow embedding of the Python sources:
  src/data/ingestion/ingest_data_full.py (period assignment, vintage
  classification, incremental update filtering) and
  src/macrokit_datalake/ingest/processors/{base,treasury,economic}.py
  (normalization, orchestration).
Calendar dates are modelled as year/month/day triples of naturals,
numeric values as rationals, nullable float columns as Option values,
and per-series exceptions as Except results.
-/

namespace MacroKit

/-! ## Period Calculator

Embeds the business-time dimension code of ingest_data_full.py
(lines 175-197 and 404-433): pandas to_period bounds for QUARTERLY and
MONTHLY frequencies, and the date itself for DAILY and for any
unrecognized frequency string. -/

/-- A calendar date, year/month/day. -/
structure Date where
  year : Nat
  month : Nat
  day : Nat
deriving DecidableEq, Repr

/-- Gregorian leap-year rule, as used by the pandas calendar. -/
def isLeapYear (y : Nat) : Bool :=
  (y % 4 == 0 && y % 100 != 0) || y % 400 == 0

/-- Number of days of a calendar month. -/
def daysInMonth (y m : Nat) : Nat :=
  if m == 2 then (if isLeapYear y then 29 else 28)
  else if m == 4 || m == 6 || m == 9 || m == 11 then 30
  else 31

/-- A date is valid when its month and day lie in calendar range. -/
def ValidDate (d : Date) : Prop :=
  1 ≤ d.month ∧ d.month ≤ 12 ∧ 1 ≤ d.day ∧ d.day ≤ daysInMonth d.year d.month

instance (d : Date) : Decidable (ValidDate d) := by
  unfold ValidDate; infer_instance

/-- Chronological order on dates, lexicographic on year, month, day. -/
def dateLE (a b : Date) : Prop :=
  a.year < b.year ∨
    (a.year = b.year ∧
      (a.month < b.month ∨ (a.month = b.month ∧ a.day ≤ b.day)))

instance (a b : Date) : Decidable (dateLE a b) := by
  unfold dateLE; infer_instance

/-- Zero-padded two-digit rendering, as strftime does for months and days. -/
def pad2 (n : Nat) : String :=
  if n < 10 then "0" ++ toString n else toString n

/-- Zero-padded four-digit rendering of a year. -/
def pad4 (n : Nat) : String :=
  if n < 10 then "000" ++ toString n
  else if n < 100 then "00" ++ toString n
  else if n < 1000 then "0" ++ toString n
  else toString n

/-- The strftime format string percent-Y dash percent-m dash percent-d. -/
def dayLabel (d : Date) : String :=
  pad4 d.year ++ "-" ++ pad2 d.month ++ "-" ++ pad2 d.day

/-- Quarter number of a month, 1 through 4. -/
def quarterOf (m : Nat) : Nat := (m - 1) / 3 + 1

/-- A period: business-time bounds plus a canonical label. -/
structure Period where
  period_start : Date
  period_end : Date
  period_label : String
deriving DecidableEq, Repr

/-- Calendar-quarter bounds of a date, pandas to_period Q semantics:
start is the first day of the quarter, end its last day. -/
def quarterPeriod (d : Date) : Period :=
  let qm := 3 * ((d.month - 1) / 3) + 1
  { period_start := ⟨d.year, qm, 1⟩
    period_end := ⟨d.year, qm + 2, daysInMonth d.year (qm + 2)⟩
    period_label := pad4 d.year ++ "Q" ++ toString (quarterOf d.month) }

/-- Calendar-month bounds of a date, pandas to_period M semantics. -/
def monthPeriod (d : Date) : Period :=
  { period_start := ⟨d.year, d.month, 1⟩
    period_end := ⟨d.year, d.month, daysInMonth d.year d.month⟩
    period_label := pad4 d.year ++ "-" ++ pad2 d.month }

/-- Degenerate one-day period used for DAILY data. -/
def dailyPeriod (d : Date) : Period :=
  { period_start := d, period_end := d, period_label := dayLabel d }

/-- Period assignment of ingest_data_full.py: branch on the frequency
string, falling back to DAILY semantics for anything unrecognized. -/
def period_for (d : Date) (frequency : String) : Period :=
  if frequency = "QUARTERLY" then quarterPeriod d
  else if frequency = "MONTHLY" then monthPeriod d
  else if frequency = "DAILY" then dailyPeriod d
  else dailyPeriod d

/-! ## Generic stable insertion sort

Models the pandas sort_values call on a list of key columns, which is
implemented with numpy lexsort, a stable sort: any stable sort by the
same key produces the same permutation, so a stable insertion sort is
an exact model. -/

/-- Insert x into l, placing it before the first element that x sorts
at or below; equal keys from l stay in front only when strictly
smaller, so earlier-inserted equal elements keep their position. -/
def insertLe (leb : α → α → Bool) (x : α) : List α → List α
  | [] => [x]
  | y :: ys => if leb x y then x :: y :: ys else y :: insertLe leb x ys

/-- Stable insertion sort with respect to a boolean total preorder. -/
def sortLe (leb : α → α → Bool) : List α → List α
  | [] => []
  | x :: xs => insertLe leb x (sortLe leb xs)

/-! ## Vintage Observations and the Revision Classifier

Embeds ingest_economic_indicators_with_vintages of
ingest_data_full.py, lines 485-527: the per-series batch of vintage
records is sorted by period_start and version_date, the row carrying
the greatest version_date of each period group gets is_current, and
mark_revisions assigns revision_type and is_revised per group.
Dates are day ordinals (naturals); values are rationals. -/

/-- One vintage record of the all_records batch. The three flag fields
are filled in by classification. -/
structure VObs where
  period_start : Nat
  version_date : Nat
  value : ℚ
  is_current : Bool := false
  is_revised : Bool := false
  revision_type : String := ""
deriving DecidableEq, Repr

/-- Comparison used by sort_values on period_start and version_date:
lexicographic at-most on the pair of keys. -/
def vLeb (a b : VObs) : Bool :=
  decide (a.period_start < b.period_start) ||
    (a.period_start == b.period_start &&
      decide (a.version_date ≤ b.version_date))

/-- The sort_values call of line 488. -/
def sortVintages (l : List VObs) : List VObs := sortLe vLeb l

/-- Push one record onto a run decomposition: it joins the first run
when it shares that run's period_start and opens a new run otherwise. -/
def addToRuns (x : VObs) : List (List VObs) → List (List VObs)
  | [] => [[x]]
  | [] :: gs => [x] :: gs
  | (y :: g) :: gs =>
    if x.period_start == y.period_start then (x :: y :: g) :: gs
    else [x] :: (y :: g) :: gs

/-- Maximal runs of records sharing a period_start. On the sorted
batch these runs are exactly the pandas groupby period_start groups,
listed in ascending period order. -/
def groupRuns : List VObs → List (List VObs)
  | [] => []
  | x :: xs => addToRuns x (groupRuns xs)

/-- The period_start of the first record of a run. -/
def headKey : List VObs → Nat
  | [] => 0
  | o :: _ => o.period_start

/-- Greatest version_date of a group, the groupby max of line 494. -/
def maxVersion (g : List VObs) : Nat :=
  g.foldl (fun m o => max m o.version_date) 0

/-- Walk a group setting is_current on the first record whose
version_date equals m and clearing it everywhere else; this is the
idxmax semantics of line 494: the index of the first occurrence of the
maximum value, scanned in the sorted group order. -/
def markCurrentAux (m : Nat) : Bool → List VObs → List VObs
  | _, [] => []
  | found, o :: os =>
    if !found && o.version_date == m then
      { o with is_current := true } :: markCurrentAux m true os
    else
      { o with is_current := false } :: markCurrentAux m found os

/-- Set is_current within one period group, lines 493-497. -/
def markCurrentGroup (g : List VObs) : List VObs :=
  markCurrentAux (maxVersion g) false g

/-- Position of the first record whose version_date is m; equals the
length of the group when no record matches. -/
def firstMaxIdx (m : Nat) : List VObs → Nat
  | [] => 0
  | o :: os => if o.version_date == m then 0 else firstMaxIdx m os + 1

/-- The revision_types list of line 515: PRELIMINARY, then n - 2
copies of REVISED, then FINAL. -/
def revTypes (n : Nat) : List String :=
  "PRELIMINARY" :: (List.replicate (n - 2) "REVISED" ++ ["FINAL"])

/-- The values of a group, for the nunique distinct-value count. -/
def vals (g : List VObs) : List ℚ := g.map VObs.value

/-- The mark_revisions closure of lines 501-523, applied to one period
group in sorted order. -/
def mark_revisions (g : List VObs) : List VObs :=
  if g.length = 1 then
    g.map (fun o => { o with is_revised := false, revision_type := "FINAL" })
  else if 1 < ((vals g).dedup).length then
    List.zipWith (fun o t => { o with is_revised := true, revision_type := t })
      g (revTypes g.length)
  else
    g.map (fun o => { o with is_revised := false, revision_type := "FINAL" })

/-- Classification of one period group: is_current marking followed by
revision marking, as the source applies them to each group. -/
def classifyGroup (g : List VObs) : List VObs :=
  mark_revisions (markCurrentGroup g)

/-- The whole classification pass of lines 485-527: sort the batch,
split into period groups, classify each group, and reassemble. -/
def classify (batch : List VObs) : List VObs :=
  ((groupRuns (sortVintages batch)).map classifyGroup).flatten

/-- The rows of the classified output that describe period p. -/
def periodRows (batch : List VObs) (p : Nat) : List VObs :=
  (classify batch).filter (fun o => o.period_start == p)

/-- Concrete test batch: one period, three vintages, a revised value. -/
def fixtureC1 : List VObs :=
  [⟨0, 1, 5, false, false, ""⟩, ⟨0, 2, 6, false, false, ""⟩,
    ⟨0, 3, 6, false, false, ""⟩]

/-- Concrete test batch: two periods with two and one vintages. -/
def fixtureC2 : List VObs :=
  [⟨0, 1, 5, false, false, ""⟩, ⟨0, 2, 6, false, false, ""⟩,
    ⟨9, 4, 3, false, false, ""⟩]

/-- Concrete test batch: one period, two vintages sharing a vintage
date, so the maximum version_date is tied. -/
def fixtureC5 : List VObs :=
  [⟨0, 7, 1, false, false, ""⟩, ⟨0, 7, 2, false, false, ""⟩]

/-! ## Incremental update filter of ingest_economic_indicators

Embeds lines 241-298 of ingest_data_full.py: in update-only mode with
no explicit start date, the stored watermark (the greatest persisted
period_start) splits the fetched batch; when no row lies beyond the
watermark the series is skipped entirely, otherwise rows beyond the
watermark are inserted as-is and every row at or below it is re-marked
REVISED and re-inserted. -/

/-- One row of the fetched economic-indicator frame, after the column
assignments of lines 168-239. -/
structure EIRow where
  period_start : Nat
  value : ℚ
  is_revised : Bool
  revision_type : String
deriving DecidableEq, Repr

/-- The re-marking of lines 281-283 applied to an already-stored row. -/
def markRevised (r : EIRow) : EIRow :=
  { r with is_revised := true, revision_type := "REVISED" }

/-- The update-only selection of lines 241-298. A missing watermark
(empty table) leaves the batch unchanged; the continue of line 261
drops the whole batch when no row is beyond the watermark. -/
def filterForUpdate (df : List EIRow) (lastDate : Option Nat) : List EIRow :=
  match lastDate with
  | none => df
  | some w =>
    let newData := df.filter (fun r => decide (w < r.period_start))
    if newData.length = 0 then []
    else
      let existingDates := df.filter (fun r => decide (r.period_start ≤ w))
      if existingDates.length = 0 then newData
      else newData ++ existingDates.map markRevised

/-- Modelled from the words of section 4.4 of the spec, for comparison
with filterForUpdate: an observation is selected when its period_start
exceeds the watermark, or when it is at or below the watermark but its
period belongs to the set of periods whose values changed since the
prior pass (the changed flag). -/
def specSelects (w : Nat) (changed : Nat → Bool) (r : EIRow) : Bool :=
  decide (w < r.period_start) ||
    (decide (r.period_start ≤ w) && changed r.period_start)

/-- Concrete batch for the incremental filter: one already-stored
period and one new period. -/
def fixtureC3 : List EIRow :=
  [⟨5, 1, false, "FINAL"⟩, ⟨15, 3, false, "FINAL"⟩]

/-! ## Normalization in the datalake processors

Embeds TreasuryYieldProcessor.transform_data and
EconomicProcessor.transform_data. A value of none models a null or
non-numeric provider value, which pandas to_numeric with errors coerce
turns into NaN; arithmetic maps over the option exactly as arithmetic
on a float column propagates NaN. -/

/-- A raw treasury row as fetched: date and possibly-missing yield. -/
structure TRawRow where
  date : Nat
  value : Option ℚ
deriving DecidableEq, Repr

/-- Static series info of the treasury configuration CSV. -/
structure TreasuryInfo where
  indicator : String
  tenor : String
  curve_type : String
deriving DecidableEq, Repr

/-- One transformed treasury row headed for raw.us_treasury_yields. -/
structure TRow where
  date : Nat
  series_id : String
  tenor : String
  curve_type : String
  indicator : String
  yieldVal : Option ℚ
  bid : Option ℚ
  ask : Option ℚ
  source : String
deriving DecidableEq, Repr

/-- Sort key of the final sort_values on date and tenor. -/
def tLeb (a b : TRow) : Bool :=
  decide (a.date < b.date) ||
    (a.date == b.date && (decide (a.tenor < b.tenor) || a.tenor == b.tenor))

/-- Column assignments of treasury.py lines 39-63: series info copied
onto each row, the yield divided by 100, bid and ask left empty. The
dropna of line 50 is commented out in the source, so no row is dropped
here. -/
def treasuryRow (info : TreasuryInfo) (sid : String) (r : TRawRow) : TRow :=
  { date := r.date, series_id := sid, tenor := info.tenor,
    curve_type := info.curve_type, indicator := info.indicator,
    yieldVal := r.value.map (fun v => v / 100),
    bid := none, ask := none, source := "FRED" }

/-- TreasuryYieldProcessor.transform_data, treasury.py lines 31-68. -/
def transform_data_treasury (raw : List TRawRow) (info : TreasuryInfo)
    (sid : String) : Option (List TRow) :=
  if raw.length = 0 then none
  else if (raw.map (treasuryRow info sid)).length = 0 then none
  else some (sortLe tLeb (raw.map (treasuryRow info sid)))

/-- TreasuryYieldProcessor private filter for updates, treasury.py
lines 70-94: keep only rows dated after the stored maximum. -/
def filter_for_updates_treasury (df : List TRow) (lastDate : Option Nat) :
    List TRow :=
  match lastDate with
  | none => df
  | some ld => df.filter (fun r => decide (ld < r.date))

/-- A raw economic vintage row: observation date, vintage window and a
possibly-missing value. -/
structure ERawRow where
  observation_date : Nat
  realtime_start : Nat
  realtime_end : Option Nat
  value : Option ℚ
deriving DecidableEq, Repr

/-- Static series info of the economic configuration CSV. -/
structure EconInfo where
  indicator : String
  frequency : String
  unit : String
  category : String
  subcategory : String
deriving DecidableEq, Repr

/-- One transformed economic row headed for raw.us_economic_indicators. -/
structure ERow where
  series_id : String
  category : String
  subcategory : String
  observation_date : Nat
  value : Option ℚ
  realtime_start : Nat
  realtime_end : Nat
  indicator : String
  unit : String
  frequency : String
  source : String
deriving DecidableEq, Repr

/-- Sort key of the final sort_values on observation_date and
realtime_start. -/
def eLeb (a b : ERow) : Bool :=
  decide (a.observation_date < b.observation_date) ||
    (a.observation_date == b.observation_date &&
      decide (a.realtime_start ≤ b.realtime_start))

/-- Column assignments of economic.py lines 55-79: series info copied
onto each row, realtime_end defaulted to realtime_start when missing. -/
def economicRow (info : EconInfo) (sid : String) (r : ERawRow) : ERow :=
  { series_id := sid, category := info.category,
    subcategory := info.subcategory,
    observation_date := r.observation_date,
    value := r.value,
    realtime_start := r.realtime_start,
    realtime_end := r.realtime_end.getD r.realtime_start,
    indicator := info.indicator, unit := info.unit,
    frequency := info.frequency, source := "FRED" }

/-- EconomicProcessor.transform_data, economic.py lines 39-113: rows
with a missing value are dropped by the dropna of line 85. -/
def transform_data_economic (raw : List ERawRow) (info : EconInfo)
    (sid : String) : Option (List ERow) :=
  if raw.length = 0 then none
  else if ((raw.map (economicRow info sid)).filter
      (fun r => r.value.isSome)).length = 0 then none
  else some (sortLe eLeb ((raw.map (economicRow info sid)).filter
    (fun r => r.value.isSome)))

/-- Concrete treasury series info for evaluations. -/
def fixtureTreasuryInfo : TreasuryInfo :=
  { indicator := "DGS10 yield", tenor := "10Y", curve_type := "CMT" }

/-- Concrete economic series info for evaluations. -/
def fixtureEconInfo : EconInfo :=
  { indicator := "GDP", frequency := "QUARTERLY", unit := "BILLIONS",
    category := "output", subcategory := "gdp" }

/-! ## Orchestrator and configuration loading, base.py

Embeds BaseProcessor.process (lines 87-101) and get_series_config
(lines 42-63). The per-series work is abstracted as a function that
either completes or raises, and raising is modelled with Except; the
reading of the configuration CSV is an input, modelled as an Except
value covering both a missing file and any other read error. -/

/-- Whether an Except result is a success. -/
def okBool (e : Except String Unit) : Bool :=
  match e with
  | .ok _ => true
  | .error _ => false

/-- BaseProcessor.process: iterate the configured series, catching and
recording a per-series failure and continuing, unless raise_on_error
is set, in which case the first error is re-raised. The returned list
records one outcome per attempted series. -/
def process (cfg : List (String × EconInfo))
    (runSeries : String → EconInfo → Except String Unit)
    (raiseOnError : Bool) : Except String (List (String × Bool)) :=
  match cfg with
  | [] => .ok []
  | (sid, info) :: rest =>
    match runSeries sid info with
    | .ok _ =>
      (process rest runSeries raiseOnError).map (fun l => (sid, true) :: l)
    | .error e =>
      if raiseOnError then .error e
      else (process rest runSeries raiseOnError).map (fun l => (sid, false) :: l)

/-- BaseProcessor.get_series_config: a failed CSV read, whether a
missing file or any other exception, is logged and yields the empty
mapping; it never propagates. -/
def get_series_config
    (loadResult : Except String (List (String × EconInfo))) :
    List (String × EconInfo) :=
  match loadResult with
  | .ok rows => rows
  | .error _ => []

end MacroKit

namespace MacroKit

/-! ## Theorems: Period Calculator -/

theorem quarterPeriod_bounds (d : Date) (hd : ValidDate d) :
    dateLE (quarterPeriod d).period_start d ∧
      dateLE d (quarterPeriod d).period_end := by
  obtain ⟨h1, h2, h3, h4⟩ := hd
  constructor
  · show dateLE ⟨d.year, 3 * ((d.month - 1) / 3) + 1, 1⟩ d
    show d.year < d.year ∨
      (d.year = d.year ∧
        (3 * ((d.month - 1) / 3) + 1 < d.month ∨
          (3 * ((d.month - 1) / 3) + 1 = d.month ∧ 1 ≤ d.day)))
    omega
  · show dateLE d ⟨d.year, 3 * ((d.month - 1) / 3) + 1 + 2,
      daysInMonth d.year (3 * ((d.month - 1) / 3) + 1 + 2)⟩
    show d.year < d.year ∨
      (d.year = d.year ∧
        (d.month < 3 * ((d.month - 1) / 3) + 1 + 2 ∨
          (d.month = 3 * ((d.month - 1) / 3) + 1 + 2 ∧
            d.day ≤ daysInMonth d.year (3 * ((d.month - 1) / 3) + 1 + 2))))
    rcases Nat.lt_or_ge d.month (3 * ((d.month - 1) / 3) + 1 + 2) with hlt | hge
    · omega
    · have hm : d.month = 3 * ((d.month - 1) / 3) + 1 + 2 := by omega
      refine Or.inr ⟨rfl, Or.inr ⟨hm, ?_⟩⟩
      rw [← hm]
      exact h4

theorem monthPeriod_bounds (d : Date) (hd : ValidDate d) :
    dateLE (monthPeriod d).period_start d ∧
      dateLE d (monthPeriod d).period_end := by
  obtain ⟨h1, h2, h3, h4⟩ := hd
  constructor
  · show dateLE ⟨d.year, d.month, 1⟩ d
    show d.year < d.year ∨
      (d.year = d.year ∧ (d.month < d.month ∨ (d.month = d.month ∧ 1 ≤ d.day)))
    omega
  · show dateLE d ⟨d.year, d.month, daysInMonth d.year d.month⟩
    show d.year < d.year ∨
      (d.year = d.year ∧
        (d.month < d.month ∨
          (d.month = d.month ∧ d.day ≤ daysInMonth d.year d.month)))
    omega

/-- C4: for every valid calendar date and every frequency string, the
computed period brackets the date: period_start is at or before the
date and period_end at or after it. The QUARTERLY branch produces the
calendar quarter bounds, the MONTHLY branch the calendar month bounds,
and the DAILY branch the degenerate period whose start and end both
equal the date. -/
theorem period_for_brackets (d : Date) (f : String) (hd : ValidDate d) :
    (dateLE (period_for d f).period_start d ∧
      dateLE d (period_for d f).period_end) ∧
    period_for d "QUARTERLY" = quarterPeriod d ∧
    period_for d "MONTHLY" = monthPeriod d ∧
    (period_for d "DAILY").period_start = d ∧
    (period_for d "DAILY").period_end = d := by
  refine ⟨?_, rfl, rfl, rfl, rfl⟩
  unfold period_for
  split
  · exact quarterPeriod_bounds d hd
  · split
    · exact monthPeriod_bounds d hd
    · have hday : dateLE d d := Or.inr ⟨rfl, Or.inr ⟨rfl, Nat.le_refl _⟩⟩
      split
      · exact ⟨hday, hday⟩
      · exact ⟨hday, hday⟩

theorem period_for_brackets_witness :
    ValidDate ⟨2024, 2, 29⟩ ∧
      ((dateLE (period_for ⟨2024, 2, 29⟩ "QUARTERLY").period_start
          ⟨2024, 2, 29⟩ ∧
        dateLE ⟨2024, 2, 29⟩
          (period_for ⟨2024, 2, 29⟩ "QUARTERLY").period_end) ∧
      period_for ⟨2024, 2, 29⟩ "QUARTERLY" = quarterPeriod ⟨2024, 2, 29⟩ ∧
      period_for ⟨2024, 2, 29⟩ "MONTHLY" = monthPeriod ⟨2024, 2, 29⟩ ∧
      (period_for ⟨2024, 2, 29⟩ "DAILY").period_start = ⟨2024, 2, 29⟩ ∧
      (period_for ⟨2024, 2, 29⟩ "DAILY").period_end = ⟨2024, 2, 29⟩) :=
  ⟨by decide, period_for_brackets ⟨2024, 2, 29⟩ "QUARTERLY" (by decide)⟩

/-- C8: any frequency string other than QUARTERLY, MONTHLY and DAILY
takes the fallback branch: the computation is total, and it returns the
DAILY semantics, a degenerate period whose start and end both equal the
observation date, labelled with the zero-padded year-month-day format. -/
theorem period_for_fallback_daily (d : Date) (f : String)
    (hq : f ≠ "QUARTERLY") (hm : f ≠ "MONTHLY") (hdy : f ≠ "DAILY") :
    period_for d f = dailyPeriod d ∧
      (period_for d f).period_start = d ∧
      (period_for d f).period_end = d ∧
      (period_for d f).period_label = dayLabel d := by
  unfold period_for
  rw [if_neg hq, if_neg hm, if_neg hdy]
  exact ⟨rfl, rfl, rfl, rfl⟩

theorem period_for_fallback_daily_witness :
    period_for ⟨2024, 3, 7⟩ "WEEKLY" = dailyPeriod ⟨2024, 3, 7⟩ ∧
      (period_for ⟨2024, 3, 7⟩ "WEEKLY").period_start = ⟨2024, 3, 7⟩ ∧
      (period_for ⟨2024, 3, 7⟩ "WEEKLY").period_end = ⟨2024, 3, 7⟩ ∧
      (period_for ⟨2024, 3, 7⟩ "WEEKLY").period_label = dayLabel ⟨2024, 3, 7⟩ :=
  period_for_fallback_daily ⟨2024, 3, 7⟩ "WEEKLY"
    (by decide) (by decide) (by decide)

/-! ## Lemmas: the generic stable sort -/

theorem insertLe_perm (leb : α → α → Bool) (x : α) (l : List α) :
    List.Perm (insertLe leb x l) (x :: l) := by
  induction l with
  | nil => exact List.Perm.refl _
  | cons y ys ih =>
    unfold insertLe
    split
    · exact List.Perm.refl _
    · exact (ih.cons y).trans (List.Perm.swap x y ys)

theorem sortLe_perm (leb : α → α → Bool) (l : List α) :
    List.Perm (sortLe leb l) l := by
  induction l with
  | nil => exact List.Perm.refl _
  | cons x xs ih =>
    exact (insertLe_perm leb x (sortLe leb xs)).trans (ih.cons x)

theorem mem_insertLe {leb : α → α → Bool} {x b : α} {l : List α}
    (hb : b ∈ insertLe leb x l) : b = x ∨ b ∈ l := by
  have := (insertLe_perm leb x l).mem_iff.mp hb
  simpa using this

theorem insertLe_pairwise {leb : α → α → Bool}
    (htot : ∀ a b, leb a b = false → leb b a = true)
    (htr : ∀ a b c, leb a b = true → leb b c = true → leb a c = true)
    (x : α) {l : List α} (hl : List.Pairwise (fun a b => leb a b = true) l) :
    List.Pairwise (fun a b => leb a b = true) (insertLe leb x l) := by
  induction l with
  | nil => simp [insertLe]
  | cons y ys ih =>
    obtain ⟨hy, hys⟩ := List.pairwise_cons.mp hl
    unfold insertLe
    split
    next hxy =>
      refine List.pairwise_cons.mpr ⟨?_, hl⟩
      intro b hb
      rcases List.mem_cons.mp hb with rfl | hb
      · exact hxy
      · exact htr _ _ _ hxy (hy b hb)
    next hxy =>
      have hxy' : leb x y = false := by
        cases h : leb x y
        · rfl
        · exact absurd h hxy
      have hyx : leb y x = true := htot _ _ hxy'
      refine List.pairwise_cons.mpr ⟨?_, ih hys⟩
      intro b hb
      rcases mem_insertLe hb with rfl | hb
      · exact hyx
      · exact hy b hb

theorem sortLe_pairwise {leb : α → α → Bool}
    (htot : ∀ a b, leb a b = false → leb b a = true)
    (htr : ∀ a b c, leb a b = true → leb b c = true → leb a c = true)
    (l : List α) :
    List.Pairwise (fun a b => leb a b = true) (sortLe leb l) := by
  induction l with
  | nil => simp [sortLe]
  | cons x xs ih => exact insertLe_pairwise htot htr x ih

theorem insertLe_filter_key {κ : Type} [DecidableEq κ] {leb : α → α → Bool}
    (k : α → κ) (hk : ∀ a b, leb a b = false → k b ≠ k a)
    (x : α) (l : List α) (v : κ) :
    (insertLe leb x l).filter (fun a => decide (k a = v)) =
      (x :: l).filter (fun a => decide (k a = v)) := by
  induction l with
  | nil => rfl
  | cons y ys ih =>
    unfold insertLe
    split
    · rfl
    next hxy =>
      have hxy' : leb x y = false := by
        cases h : leb x y
        · rfl
        · exact absurd h hxy
      have hne : k y ≠ k x := hk x y hxy'
      simp only [List.filter_cons] at ih ⊢
      by_cases hky : k y = v <;> by_cases hkx : k x = v
      · exact absurd (hky.trans hkx.symm) hne
      · simp_all
      · simp_all
      · simp_all

theorem sortLe_filter_key {κ : Type} [DecidableEq κ] {leb : α → α → Bool}
    (k : α → κ) (hk : ∀ a b, leb a b = false → k b ≠ k a)
    (l : List α) (v : κ) :
    (sortLe leb l).filter (fun a => decide (k a = v)) =
      l.filter (fun a => decide (k a = v)) := by
  induction l with
  | nil => rfl
  | cons x xs ih =>
    calc (insertLe leb x (sortLe leb xs)).filter (fun a => decide (k a = v))
        = (x :: sortLe leb xs).filter (fun a => decide (k a = v)) :=
          insertLe_filter_key k hk x (sortLe leb xs) v
      _ = (x :: xs).filter (fun a => decide (k a = v)) := by
          simp only [List.filter_cons, ih]

/-! ## Lemmas: properties of vLeb and of the period runs -/

theorem vLeb_total (a b : VObs) (h : vLeb a b = false) : vLeb b a = true := by
  unfold vLeb at h ⊢
  simp only [Bool.or_eq_false_iff, Bool.and_eq_false_iff, decide_eq_false_iff_not,
    beq_eq_false_iff_ne] at h
  simp only [Bool.or_eq_true, Bool.and_eq_true, decide_eq_true_eq, beq_iff_eq]
  omega

theorem vLeb_trans (a b c : VObs) (hab : vLeb a b = true)
    (hbc : vLeb b c = true) : vLeb a c = true := by
  unfold vLeb at hab hbc ⊢
  simp only [Bool.or_eq_true, Bool.and_eq_true, decide_eq_true_eq, beq_iff_eq]
    at hab hbc ⊢
  omega

theorem vLeb_false_key_ne (a b : VObs) (h : vLeb a b = false) :
    (b.period_start, b.version_date) ≠ (a.period_start, a.version_date) := by
  unfold vLeb at h
  simp only [Bool.or_eq_false_iff, Bool.and_eq_false_iff, decide_eq_false_iff_not,
    beq_eq_false_iff_ne] at h
  intro hk
  have h1 : b.period_start = a.period_start := congrArg Prod.fst hk
  have h2 : b.version_date = a.version_date := congrArg Prod.snd hk
  omega

theorem sortVintages_perm (l : List VObs) :
    List.Perm (sortVintages l) l :=
  sortLe_perm vLeb l

theorem sortVintages_sorted (l : List VObs) :
    List.Pairwise (fun a b => vLeb a b = true) (sortVintages l) :=
  sortLe_pairwise vLeb_total vLeb_trans l

theorem sortVintages_stable (l : List VObs) (v : Nat × Nat) :
    (sortVintages l).filter
        (fun a => decide ((a.period_start, a.version_date) = v)) =
      l.filter (fun a => decide ((a.period_start, a.version_date) = v)) :=
  sortLe_filter_key (fun a => (a.period_start, a.version_date))
    vLeb_false_key_ne l v

theorem sortVintages_period_sorted (l : List VObs) :
    List.Pairwise (fun a b => a.period_start ≤ b.period_start)
      (sortVintages l) := by
  refine (sortVintages_sorted l).imp ?_
  intro a b h
  unfold vLeb at h
  simp only [Bool.or_eq_true, Bool.and_eq_true, decide_eq_true_eq, beq_iff_eq] at h
  omega

theorem flatten_groupRuns (l : List VObs) : (groupRuns l).flatten = l := by
  induction l with
  | nil => rfl
  | cons x xs ih =>
    show (addToRuns x (groupRuns xs)).flatten = x :: xs
    cases hgr : groupRuns xs with
    | nil =>
      rw [hgr] at ih
      simp only [List.flatten_nil] at ih
      simp [addToRuns, ← ih]
    | cons g0 gs =>
      rw [hgr] at ih
      cases g0 with
      | nil =>
        simp only [List.flatten_cons, List.nil_append] at ih
        simp [addToRuns, ih]
      | cons y g =>
        simp only [addToRuns]
        split
        · simp only [List.flatten_cons] at ih ⊢
          simp [ih]
        · simp only [List.flatten_cons] at ih ⊢
          simp [ih]

theorem groupRuns_ne_nil (l : List VObs) :
    ∀ g ∈ groupRuns l, g ≠ [] := by
  induction l with
  | nil => intro g hg; simp [groupRuns] at hg
  | cons x xs ih =>
    intro g hg
    have hg' : g ∈ addToRuns x (groupRuns xs) := hg
    cases hgr : groupRuns xs with
    | nil =>
      rw [hgr] at hg'
      simp only [addToRuns, List.mem_singleton] at hg'
      subst hg'
      exact List.cons_ne_nil _ _
    | cons g0 gs =>
      rw [hgr] at hg'
      cases g0 with
      | nil =>
        simp only [addToRuns] at hg'
        rcases List.mem_cons.mp hg' with rfl | hmem
        · exact List.cons_ne_nil _ _
        · exact ih g (hgr ▸ List.mem_cons_of_mem _ hmem)
      | cons y g' =>
        simp only [addToRuns] at hg'
        split at hg'
        · rcases List.mem_cons.mp hg' with rfl | hmem
          · exact List.cons_ne_nil _ _
          · exact ih g (hgr ▸ List.mem_cons_of_mem _ hmem)
        · rcases List.mem_cons.mp hg' with rfl | hmem
          · exact List.cons_ne_nil _ _
          · exact ih g (hgr ▸ hmem)

theorem groupRuns_headKey (l : List VObs) :
    ∀ g ∈ groupRuns l, ∀ a ∈ g, a.period_start = headKey g := by
  induction l with
  | nil => intro g hg; simp [groupRuns] at hg
  | cons x xs ih =>
    intro g hg a ha
    have hg' : g ∈ addToRuns x (groupRuns xs) := hg
    cases hgr : groupRuns xs with
    | nil =>
      rw [hgr] at hg'
      simp only [addToRuns, List.mem_singleton] at hg'
      subst hg'
      simp only [List.mem_singleton] at ha
      subst ha
      rfl
    | cons g0 gs =>
      rw [hgr] at hg'
      cases g0 with
      | nil =>
        simp only [addToRuns] at hg'
        rcases List.mem_cons.mp hg' with rfl | hmem
        · simp only [List.mem_singleton] at ha
          subst ha; rfl
        · exact ih g (hgr ▸ List.mem_cons_of_mem _ hmem) a ha
      | cons y g' =>
        simp only [addToRuns] at hg'
        split at hg'
        next heq =>
          rcases List.mem_cons.mp hg' with rfl | hmem
          · rcases List.mem_cons.mp ha with rfl | ha'
            · rfl
            · have hmem0 : (y :: g') ∈ groupRuns xs :=
                hgr ▸ List.mem_cons_self _ _
              have := ih (y :: g') hmem0 a ha'
              have hxy : x.period_start = y.period_start := by
                simpa using heq
              simp only [headKey] at this ⊢
              rw [this, hxy]
          · exact ih g (hgr ▸ List.mem_cons_of_mem _ hmem) a ha
        next _ =>
          rcases List.mem_cons.mp hg' with rfl | hmem
          · simp only [List.mem_singleton] at ha
            subst ha; rfl
          · exact ih g (hgr ▸ hmem) a ha

theorem groupRuns_mem_subset (l : List VObs) :
    ∀ g ∈ groupRuns l, ∀ a ∈ g, a ∈ l := by
  intro g hg a ha
  have : a ∈ (groupRuns l).flatten := List.mem_flatten.mpr ⟨g, hg, ha⟩
  rwa [flatten_groupRuns] at this

theorem groupRuns_sublist (l : List VObs) :
    ∀ g ∈ groupRuns l, g.Sublist l := by
  induction l with
  | nil => intro g hg; simp [groupRuns] at hg
  | cons x xs ih =>
    intro g hg
    have hg' : g ∈ addToRuns x (groupRuns xs) := hg
    cases hgr : groupRuns xs with
    | nil =>
      rw [hgr] at hg'
      simp only [addToRuns, List.mem_singleton] at hg'
      subst hg'
      simp
    | cons g0 gs =>
      rw [hgr] at hg'
      cases g0 with
      | nil =>
        simp only [addToRuns] at hg'
        rcases List.mem_cons.mp hg' with rfl | hmem
        · simp
        · exact (ih g (hgr ▸ List.mem_cons_of_mem _ hmem)).cons x
      | cons y g' =>
        simp only [addToRuns] at hg'
        split at hg'
        · rcases List.mem_cons.mp hg' with rfl | hmem
          · exact (ih (y :: g') (hgr ▸ List.mem_cons_self _ _)).cons₂ x
          · exact (ih g (hgr ▸ List.mem_cons_of_mem _ hmem)).cons x
        · rcases List.mem_cons.mp hg' with rfl | hmem
          · simp
          · exact (ih g (hgr ▸ hmem)).cons x

theorem groupRuns_heads_lt (l : List VObs)
    (hs : List.Pairwise (fun a b => a.period_start ≤ b.period_start) l) :
    List.Pairwise (fun g h => headKey g < headKey h) (groupRuns l) := by
  induction l with
  | nil => simp [groupRuns]
  | cons x xs ih =>
    obtain ⟨hx, hxs⟩ := List.pairwise_cons.mp hs
    have ihp := ih hxs
    show List.Pairwise (fun g h => headKey g < headKey h)
      (addToRuns x (groupRuns xs))
    cases hgr : groupRuns xs with
    | nil => simp [addToRuns]
    | cons g0 gs =>
      rw [hgr] at ihp
      cases g0 with
      | nil =>
        exact absurd rfl (groupRuns_ne_nil xs [] (hgr ▸ List.mem_cons_self _ _))
      | cons y g =>
        obtain ⟨hy, hgs⟩ := List.pairwise_cons.mp ihp
        simp only [addToRuns]
        split
        next heq =>
          have hxy : x.period_start = y.period_start := by simpa using heq
          refine List.pairwise_cons.mpr ⟨?_, hgs⟩
          intro h hh
          have := hy h hh
          simp only [headKey] at this ⊢
          omega
        next hne =>
          have hxy : x.period_start ≠ y.period_start := by
            simpa using hne
          have hyxs : y ∈ xs :=
            groupRuns_mem_subset xs (y :: g) (hgr ▸ List.mem_cons_self _ _)
              y (List.mem_cons_self _ _)
          have hle : x.period_start ≤ y.period_start := hx y hyxs
          have hlt : x.period_start < y.period_start := lt_of_le_of_ne hle hxy
          refine List.pairwise_cons.mpr ⟨?_, ihp⟩
          intro h hh
          rcases List.mem_cons.mp hh with rfl | hh
          · simpa [headKey] using hlt
          · have := hy h hh
            simp only [headKey] at this ⊢
            omega

/-! ## Lemmas: maxVersion, is_current marking, revision marking -/

theorem foldlMax_le_init (l : List VObs) :
    ∀ a : Nat, a ≤ l.foldl (fun m o => max m o.version_date) a := by
  induction l with
  | nil => intro a; exact Nat.le_refl a
  | cons o os ih =>
    intro a
    exact le_trans (Nat.le_max_left a o.version_date) (ih _)

theorem foldlMax_ge_mem (l : List VObs) :
    ∀ a : Nat, ∀ o ∈ l,
      o.version_date ≤ l.foldl (fun m o => max m o.version_date) a := by
  induction l with
  | nil => intro a o ho; simp at ho
  | cons x xs ih =>
    intro a o ho
    rcases List.mem_cons.mp ho with rfl | ho
    · exact le_trans (Nat.le_max_right a o.version_date) (foldlMax_le_init xs _)
    · exact ih _ o ho

theorem foldlMax_attained (l : List VObs) :
    ∀ a : Nat, l.foldl (fun m o => max m o.version_date) a = a ∨
      ∃ o ∈ l, l.foldl (fun m o => max m o.version_date) a = o.version_date := by
  induction l with
  | nil => intro a; exact Or.inl rfl
  | cons x xs ih =>
    intro a
    rcases ih (max a x.version_date) with h | ⟨o, ho, h⟩
    · rcases le_or_lt x.version_date a with hle | hlt
      · left
        simpa [Nat.max_eq_left hle] using h
      · right
        refine ⟨x, List.mem_cons_self _ _, ?_⟩
        simpa [Nat.max_eq_right (Nat.le_of_lt hlt)] using h
    · exact Or.inr ⟨o, List.mem_cons_of_mem _ ho, h⟩

theorem maxVersion_ge (g : List VObs) : ∀ o ∈ g, o.version_date ≤ maxVersion g :=
  foldlMax_ge_mem g 0

theorem maxVersion_attained (g : List VObs) (hg : g ≠ []) :
    ∃ o ∈ g, o.version_date = maxVersion g := by
  rcases foldlMax_attained g 0 with h | ⟨o, ho, h⟩
  · cases g with
    | nil => exact absurd rfl hg
    | cons x xs =>
      refine ⟨x, List.mem_cons_self _ _, ?_⟩
      have hle := maxVersion_ge (x :: xs) x (List.mem_cons_self _ _)
      have h' : maxVersion (x :: xs) = 0 := h
      omega
  · exact ⟨o, ho, h.symm⟩

theorem markCurrentAux_true (m : Nat) (g : List VObs) :
    markCurrentAux m true g = g.map (fun o => { o with is_current := false }) := by
  induction g with
  | nil => rfl
  | cons o os ih =>
    unfold markCurrentAux
    simp [ih]

theorem markCurrentAux_getElem? (m : Nat) (g : List VObs) (j : Nat) :
    (markCurrentAux m false g)[j]? =
      (g[j]?).map
        (fun o => { o with is_current := decide (j = firstMaxIdx m g) }) := by
  induction g generalizing j with
  | nil => simp [markCurrentAux]
  | cons o os ih =>
    cases hv : (o.version_date == m) with
    | true =>
      have hstep : markCurrentAux m false (o :: os) =
          { o with is_current := true } :: markCurrentAux m true os := by
        conv_lhs => unfold markCurrentAux
        simp [hv]
      have hfi : firstMaxIdx m (o :: os) = 0 := by
        conv_lhs => unfold firstMaxIdx
        simp [hv]
      rw [hstep, hfi, markCurrentAux_true]
      cases j with
      | zero => simp
      | succ n => simp
    | false =>
      have hstep : markCurrentAux m false (o :: os) =
          { o with is_current := false } :: markCurrentAux m false os := by
        conv_lhs => unfold markCurrentAux
        simp [hv]
      have hfi : firstMaxIdx m (o :: os) = firstMaxIdx m os + 1 := by
        conv_lhs => unfold firstMaxIdx
        simp [hv]
      rw [hstep, hfi]
      cases j with
      | zero => simp
      | succ n =>
        simp only [List.getElem?_cons_succ, ih n]
        cases hos : os[n]? with
        | none => rfl
        | some a =>
          simp only [Option.map_some']
          have hdec : decide (n = firstMaxIdx m os) =
              decide (n + 1 = firstMaxIdx m os + 1) :=
            decide_eq_decide.mpr (by omega)
          rw [hdec]

theorem markCurrentAux_length (m : Nat) (f : Bool) (g : List VObs) :
    (markCurrentAux m f g).length = g.length := by
  induction g generalizing f with
  | nil => rfl
  | cons o os ih =>
    unfold markCurrentAux
    split <;> simp [ih]

theorem firstMaxIdx_le_length (m : Nat) (g : List VObs) :
    firstMaxIdx m g ≤ g.length := by
  induction g with
  | nil => exact Nat.le_refl 0
  | cons o os ih =>
    unfold firstMaxIdx
    split
    · exact Nat.zero_le _
    · simpa using Nat.succ_le_succ ih

theorem firstMaxIdx_lt_length (m : Nat) (g : List VObs)
    (hm : ∃ o ∈ g, o.version_date = m) : firstMaxIdx m g < g.length := by
  induction g with
  | nil => simp at hm
  | cons o os ih =>
    unfold firstMaxIdx
    split
    · simp
    next hne =>
      have : ∃ a ∈ os, a.version_date = m := by
        rcases hm with ⟨a, ha, hav⟩
        rcases List.mem_cons.mp ha with rfl | ha'
        · exact absurd (by simp [hav]) hne
        · exact ⟨a, ha', hav⟩
      simpa using Nat.succ_lt_succ (ih this)

theorem firstMaxIdx_version (m : Nat) (g : List VObs)
    (hm : ∃ o ∈ g, o.version_date = m) :
    (g[firstMaxIdx m g]?).map VObs.version_date = some m := by
  induction g with
  | nil => simp at hm
  | cons o os ih =>
    unfold firstMaxIdx
    split
    next heq =>
      simp only [List.getElem?_cons_zero, Option.map_some]
      simpa using (beq_iff_eq.mp heq)
    next hne =>
      have : ∃ a ∈ os, a.version_date = m := by
        rcases hm with ⟨a, ha, hav⟩
        rcases List.mem_cons.mp ha with rfl | ha'
        · exact absurd (by simp [hav]) hne
        · exact ⟨a, ha', hav⟩
      simpa using ih this

theorem firstMaxIdx_before (m : Nat) (g : List VObs) (j : Nat)
    (hj : j < firstMaxIdx m g) :
    (g[j]?).map VObs.version_date ≠ some m := by
  induction g generalizing j with
  | nil => simp [firstMaxIdx] at hj
  | cons o os ih =>
    unfold firstMaxIdx at hj
    split at hj
    · omega
    next hne =>
      cases j with
      | zero =>
        simp only [List.getElem?_cons_zero, Option.map_some, ne_eq,
          Option.some.injEq]
        simpa using hne
      | succ n =>
        simp only [List.getElem?_cons_succ]
        exact ih n (by omega)

theorem markCurrentAux_true_filter (m : Nat) (g : List VObs) :
    ((markCurrentAux m true g).filter (fun o => o.is_current)).length = 0 := by
  rw [markCurrentAux_true]
  rw [List.filter_map]
  simp

theorem markCurrentAux_filter_one (m : Nat) (g : List VObs)
    (hm : ∃ o ∈ g, o.version_date = m) :
    ((markCurrentAux m false g).filter (fun o => o.is_current)).length = 1 := by
  induction g with
  | nil => simp at hm
  | cons o os ih =>
    cases hv : (o.version_date == m) with
    | true =>
      have hstep : markCurrentAux m false (o :: os) =
          { o with is_current := true } :: markCurrentAux m true os := by
        conv_lhs => unfold markCurrentAux
        simp [hv]
      rw [hstep, List.filter_cons]
      simp only [decide_eq_true_eq, if_pos]
      simp [markCurrentAux_true_filter]
    | false =>
      have hstep : markCurrentAux m false (o :: os) =
          { o with is_current := false } :: markCurrentAux m false os := by
        conv_lhs => unfold markCurrentAux
        simp [hv]
      have hm' : ∃ a ∈ os, a.version_date = m := by
        rcases hm with ⟨a, ha, hav⟩
        rcases List.mem_cons.mp ha with rfl | ha'
        · exact absurd (by simp [hav]) (by simp [hv] : ¬(a.version_date == m) = true)
        · exact ⟨a, ha', hav⟩
      rw [hstep, List.filter_cons]
      simp only [if_neg]
      simpa using ih hm'

theorem markCurrentGroup_filter_one (g : List VObs) (hg : g ≠ []) :
    ((markCurrentGroup g).filter (fun o => o.is_current)).length = 1 :=
  markCurrentAux_filter_one (maxVersion g) g (maxVersion_attained g hg)

theorem markCurrentGroup_getElem? (g : List VObs) (j : Nat) :
    (markCurrentGroup g)[j]? =
      (g[j]?).map (fun o =>
        { o with is_current := decide (j = firstMaxIdx (maxVersion g) g) }) :=
  markCurrentAux_getElem? (maxVersion g) g j

theorem dedup_gt_one_len (g : List VObs) (h : 1 < ((vals g).dedup).length) :
    2 ≤ g.length := by
  have h1 : ((vals g).dedup).length ≤ (vals g).length :=
    ((vals g).dedup_sublist).length_le
  have h2 : (vals g).length = g.length := List.length_map g VObs.value
  omega

theorem revTypes_length (n : Nat) (h : 2 ≤ n) : (revTypes n).length = n := by
  unfold revTypes
  simp
  omega

theorem revTypes_getElem? (n j : Nat) (h2 : 2 ≤ n) (hj : j < n) :
    (revTypes n)[j]? = some (if j = 0 then "PRELIMINARY"
      else if j = n - 1 then "FINAL" else "REVISED") := by
  unfold revTypes
  cases j with
  | zero => simp
  | succ k =>
    simp only [List.getElem?_cons_succ]
    by_cases hk : k < n - 2
    · rw [List.getElem?_append]
      rw [if_pos (by simpa using hk)]
      rw [List.getElem?_replicate_of_lt hk]
      have hne0 : ¬(k + 1 = 0) := by omega
      have hnel : ¬(k + 1 = n - 1) := by omega
      simp [hne0, hnel]
    · rw [List.getElem?_append]
      rw [if_neg (by simp only [List.length_replicate]; omega)]
      simp only [List.length_replicate]
      have hzero : k - (n - 2) = 0 := by omega
      rw [hzero]
      simp only [List.getElem?_cons_zero]
      have hne0 : ¬(k + 1 = 0) := by omega
      have hlast : k + 1 = n - 1 := by omega
      have h10 : ¬(n - 1 = 0) := by omega
      simp [hne0, hlast, h10]

theorem mark_revisions_length (g : List VObs) :
    (mark_revisions g).length = g.length := by
  unfold mark_revisions
  split
  · simp
  · split
    next h2 h1 =>
      have hlen := dedup_gt_one_len g h1
      simp [List.length_zipWith, revTypes_length g.length hlen]
    · simp

theorem mark_revisions_preserves {β : Type} (f : VObs → β)
    (hf : ∀ (o : VObs) (b : Bool) (t : String),
      f { o with is_revised := b, revision_type := t } = f o)
    (g : List VObs) (j : Nat) :
    ((mark_revisions g)[j]?).map f = (g[j]?).map f := by
  unfold mark_revisions
  split
  · simp only [List.getElem?_map, Option.map_map]
    cases g[j]? with
    | none => rfl
    | some o => simp [hf]
  · split
    next h2 h1 =>
      have hlen := dedup_gt_one_len g h1
      by_cases hj : j < g.length
      · have hts : j < (revTypes g.length).length := by
          rw [revTypes_length g.length hlen]; exact hj
        rw [List.getElem?_zipWith]
        rw [List.getElem?_eq_getElem hj, List.getElem?_eq_getElem hts]
        simp [hf]
      · have hj' : g.length ≤ j := by omega
        rw [List.getElem?_eq_none hj', List.getElem?_eq_none (by
          simp only [List.length_zipWith, revTypes_length g.length hlen,
            Nat.min_self]
          omega)]
    · simp only [List.getElem?_map, Option.map_map]
      cases g[j]? with
      | none => rfl
      | some o => simp [hf]

theorem mark_revisions_allFinal (g : List VObs)
    (h : ¬1 < ((vals g).dedup).length) :
    mark_revisions g =
      g.map (fun o => { o with is_revised := false, revision_type := "FINAL" }) := by
  unfold mark_revisions
  by_cases h1 : g.length = 1
  · rw [if_pos h1]
  · rw [if_neg h1, if_neg h]

theorem mark_revisions_len_one (g : List VObs) (h : g.length = 1) :
    mark_revisions g =
      g.map (fun o => { o with is_revised := false, revision_type := "FINAL" }) := by
  unfold mark_revisions
  rw [if_pos h]

theorem mark_revisions_revised (g : List VObs) (h1 : g.length ≠ 1)
    (h2 : 1 < ((vals g).dedup).length) :
    mark_revisions g =
      List.zipWith (fun o t => { o with is_revised := true, revision_type := t })
        g (revTypes g.length) := by
  unfold mark_revisions
  rw [if_neg h1, if_pos h2]

/-! ## Lemmas: one classified group and the reassembled batch -/

theorem classifyGroup_length (g : List VObs) :
    (classifyGroup g).length = g.length := by
  unfold classifyGroup markCurrentGroup
  rw [mark_revisions_length, markCurrentAux_length]

theorem classifyGroup_preserves {β : Type} (f : VObs → β)
    (hf1 : ∀ (o : VObs) (b : Bool) (t : String),
      f { o with is_revised := b, revision_type := t } = f o)
    (hf2 : ∀ (o : VObs) (b : Bool), f { o with is_current := b } = f o)
    (g : List VObs) (j : Nat) :
    ((classifyGroup g)[j]?).map f = (g[j]?).map f := by
  unfold classifyGroup
  rw [mark_revisions_preserves f hf1]
  rw [markCurrentGroup_getElem?]
  cases g[j]? with
  | none => rfl
  | some o => simp [hf2]

theorem classifyGroup_is_current (g : List VObs) (j : Nat) :
    ((classifyGroup g)[j]?).map VObs.is_current =
      (g[j]?).map (fun _ => decide (j = firstMaxIdx (maxVersion g) g)) := by
  unfold classifyGroup
  rw [mark_revisions_preserves VObs.is_current (fun o b t => rfl)]
  rw [markCurrentGroup_getElem?]
  cases g[j]? with
  | none => rfl
  | some o => simp

theorem length_filter_eq_of_map_eq {l₁ l₂ : List VObs} (p : VObs → Bool)
    (h : l₁.map p = l₂.map p) :
    (l₁.filter p).length = (l₂.filter p).length := by
  induction l₁ generalizing l₂ with
  | nil =>
    cases l₂ with
    | nil => rfl
    | cons b bs => simp at h
  | cons a as ih =>
    cases l₂ with
    | nil => simp at h
    | cons b bs =>
      simp only [List.map_cons, List.cons.injEq] at h
      obtain ⟨hab, hmap⟩ := h
      rw [List.filter_cons, List.filter_cons, ← hab]
      cases hpa : p a
      · simpa using ih hmap
      · simpa using ih hmap

theorem classifyGroup_map_is_current (g : List VObs) :
    (classifyGroup g).map (fun o => o.is_current) =
      (markCurrentGroup g).map (fun o => o.is_current) := by
  apply List.ext_getElem?
  intro j
  simp only [List.getElem?_map]
  unfold classifyGroup
  exact mark_revisions_preserves (fun o => o.is_current) (fun o b t => rfl)
    (markCurrentGroup g) j

theorem classifyGroup_filter_one (g : List VObs) (hg : g ≠ []) :
    ((classifyGroup g).filter (fun o => o.is_current)).length = 1 :=
  (length_filter_eq_of_map_eq _ (classifyGroup_map_is_current g)).trans
    (markCurrentGroup_filter_one g hg)

theorem classifyGroup_mem_period (g : List VObs) (o : VObs)
    (ho : o ∈ classifyGroup g) : ∃ a ∈ g, a.period_start = o.period_start := by
  obtain ⟨j, hj⟩ := List.mem_iff_getElem?.mp ho
  have hpres := classifyGroup_preserves VObs.period_start
    (fun o b t => rfl) (fun o b => rfl) g j
  rw [hj] at hpres
  cases hga : g[j]? with
  | none => rw [hga] at hpres; simp at hpres
  | some a =>
    rw [hga] at hpres
    simp only [Option.map_some'] at hpres
    have ha : a ∈ g := by
      have := List.getElem?_eq_some_iff.mp hga
      obtain ⟨hlt, hval⟩ := this
      exact hval ▸ List.getElem_mem hlt
    exact ⟨a, ha, (Option.some.inj hpres).symm⟩

theorem filter_classifyGroup (g : List VObs) (p : Nat)
    (hconst : ∀ a ∈ g, a.period_start = headKey g) :
    (classifyGroup g).filter (fun o => o.period_start == p) =
      if headKey g = p then classifyGroup g else [] := by
  have hall : ∀ o ∈ classifyGroup g, o.period_start = headKey g := by
    intro o ho
    obtain ⟨a, ha, hap⟩ := classifyGroup_mem_period g o ho
    rw [← hap]
    exact hconst a ha
  by_cases hkey : headKey g = p
  · rw [if_pos hkey]
    apply List.filter_eq_self.mpr
    intro o ho
    simp [hall o ho, hkey]
  · rw [if_neg hkey]
    apply List.filter_eq_nil_iff.mpr
    intro o ho
    simp [hall o ho, hkey]

theorem flatten_map_nil (F : List VObs → List VObs) :
    ∀ gs : List (List VObs), (∀ g ∈ gs, F g = []) → (gs.map F).flatten = [] := by
  intro gs
  induction gs with
  | nil => intro _; rfl
  | cons g gs' ih =>
    intro h
    simp only [List.map_cons, List.flatten_cons]
    rw [h g (List.mem_cons_self _ _), List.nil_append]
    exact ih (fun x hx => h x (List.mem_cons_of_mem _ hx))

theorem flatten_filter_unique (p : Nat) (F : List VObs → List VObs) :
    ∀ gs : List (List VObs),
      List.Pairwise (fun g h => headKey g < headKey h) gs →
      (∀ g ∈ gs, F g = if headKey g = p then classifyGroup g else []) →
      ((gs.map F).flatten = [] ∨
        ∃ g ∈ gs, headKey g = p ∧ (gs.map F).flatten = classifyGroup g) := by
  intro gs
  induction gs with
  | nil => intro _ _; exact Or.inl rfl
  | cons g gs' ih =>
    intro hpair hF
    obtain ⟨hg, hpair'⟩ := List.pairwise_cons.mp hpair
    have hFg := hF g (List.mem_cons_self _ _)
    by_cases hkey : headKey g = p
    · have hrest : ∀ h ∈ gs', F h = [] := by
        intro h hh
        have hlt := hg h hh
        have hne : ¬(headKey h = p) := by omega
        rw [hF h (List.mem_cons_of_mem _ hh), if_neg hne]
      right
      refine ⟨g, List.mem_cons_self _ _, hkey, ?_⟩
      simp only [List.map_cons, List.flatten_cons]
      rw [hFg, if_pos hkey, flatten_map_nil F gs' hrest, List.append_nil]
    · simp only [List.map_cons, List.flatten_cons]
      rw [hFg, if_neg hkey, List.nil_append]
      rcases ih hpair' (fun h hh => hF h (List.mem_cons_of_mem _ hh)) with
        hnil | ⟨h, hh, hkh, heq⟩
      · exact Or.inl hnil
      · exact Or.inr ⟨h, List.mem_cons_of_mem _ hh, hkh, heq⟩

theorem periodRows_decomp (batch : List VObs) (p : Nat) :
    periodRows batch p = [] ∨
      ∃ g ∈ groupRuns (sortVintages batch),
        headKey g = p ∧ periodRows batch p = classifyGroup g := by
  have hpair := groupRuns_heads_lt (sortVintages batch)
    (sortVintages_period_sorted batch)
  have hrw : periodRows batch p =
      (((groupRuns (sortVintages batch)).map
        (fun g => (classifyGroup g).filter (fun o => o.period_start == p)))).flatten := by
    unfold periodRows classify
    rw [List.filter_flatten, List.map_map]
    rfl
  rw [hrw]
  exact flatten_filter_unique p _ (groupRuns (sortVintages batch)) hpair
    (fun g hg => filter_classifyGroup g p
      (fun a ha => groupRuns_headKey (sortVintages batch) g hg a ha))

theorem mem_of_getElem?VObs {l : List VObs} {j : Nat} {a : VObs}
    (h : l[j]? = some a) : a ∈ l := by
  obtain ⟨hlt, hval⟩ := List.getElem?_eq_some_iff.mp h
  exact hval ▸ List.getElem_mem hlt

theorem classifyGroup_map_value (g : List VObs) :
    (classifyGroup g).map VObs.value = g.map VObs.value := by
  apply List.ext_getElem?
  intro j
  simp only [List.getElem?_map]
  exact classifyGroup_preserves VObs.value (fun o b t => rfl) (fun o b => rfl) g j

theorem classifyGroup_map_version (g : List VObs) :
    (classifyGroup g).map VObs.version_date = g.map VObs.version_date := by
  apply List.ext_getElem?
  intro j
  simp only [List.getElem?_map]
  exact classifyGroup_preserves VObs.version_date
    (fun o b t => rfl) (fun o b => rfl) g j

theorem markCurrentGroup_length (g : List VObs) :
    (markCurrentGroup g).length = g.length :=
  markCurrentAux_length (maxVersion g) false g

theorem markCurrentGroup_map_value (g : List VObs) :
    (markCurrentGroup g).map VObs.value = g.map VObs.value := by
  apply List.ext_getElem?
  intro j
  simp only [List.getElem?_map]
  rw [markCurrentGroup_getElem?]
  cases g[j]? with
  | none => rfl
  | some o => simp

theorem vals_classifyGroup (g : List VObs) :
    vals (classifyGroup g) = vals g :=
  classifyGroup_map_value g

theorem vals_markCurrentGroup (g : List VObs) :
    vals (markCurrentGroup g) = vals g :=
  markCurrentGroup_map_value g

theorem group_version_sorted (batch : List VObs) (g : List VObs)
    (hg : g ∈ groupRuns (sortVintages batch)) :
    List.Pairwise (fun a b => a.version_date ≤ b.version_date) g := by
  have hsub := groupRuns_sublist _ g hg
  have hsorted := (sortVintages_sorted batch).sublist hsub
  have hconst := groupRuns_headKey _ g hg
  refine List.Pairwise.imp_of_mem ?_ hsorted
  intro a b ha hb hab
  have hpa := hconst a ha
  have hpb := hconst b hb
  unfold vLeb at hab
  simp only [Bool.or_eq_true, Bool.and_eq_true, decide_eq_true_eq,
    beq_iff_eq] at hab
  omega

theorem periodRows_version_sorted (batch : List VObs) (p : Nat) :
    List.Pairwise (fun a b => a.version_date ≤ b.version_date)
      (periodRows batch p) := by
  rcases periodRows_decomp batch p with hnil | ⟨g, hg, _, heq⟩
  · rw [hnil]
    exact List.Pairwise.nil
  · rw [heq]
    have hver := group_version_sorted batch g hg
    have hmap : (classifyGroup g).map VObs.version_date =
        g.map VObs.version_date := classifyGroup_map_version g
    have h1 : List.Pairwise (fun a b : Nat => a ≤ b)
        (g.map VObs.version_date) := List.pairwise_map.mpr hver
    rw [← hmap] at h1
    exact List.pairwise_map.mp h1

theorem periodRows_len_one (batch : List VObs) (p : Nat)
    (h : (periodRows batch p).length = 1) :
    ∀ o ∈ periodRows batch p,
      o.revision_type = "FINAL" ∧ o.is_revised = false := by
  rcases periodRows_decomp batch p with hnil | ⟨g, hg, hkey, heq⟩
  · rw [hnil] at h
    simp at h
  · rw [heq] at h ⊢
    have hmcl1 : (markCurrentGroup g).length = 1 := by
      rw [markCurrentGroup_length]
      rw [classifyGroup_length] at h
      exact h
    have hform : classifyGroup g = (markCurrentGroup g).map
        (fun o => { o with is_revised := false, revision_type := "FINAL" }) := by
      unfold classifyGroup
      exact mark_revisions_len_one _ hmcl1
    rw [hform]
    intro o ho
    obtain ⟨a, _, rfl⟩ := List.mem_map.mp ho
    exact ⟨rfl, rfl⟩

theorem periodRows_all_same (batch : List VObs) (p : Nat)
    (h2 : 2 ≤ (periodRows batch p).length)
    (hd : ((vals (periodRows batch p)).dedup).length = 1) :
    ∀ o ∈ periodRows batch p,
      o.revision_type = "FINAL" ∧ o.is_revised = false := by
  rcases periodRows_decomp batch p with hnil | ⟨g, hg, hkey, heq⟩
  · rw [hnil] at h2
    simp at h2
  · rw [heq] at h2 hd ⊢
    have hdm : ¬1 < ((vals (markCurrentGroup g)).dedup).length := by
      rw [vals_markCurrentGroup]
      rw [vals_classifyGroup] at hd
      omega
    have hform : classifyGroup g = (markCurrentGroup g).map
        (fun o => { o with is_revised := false, revision_type := "FINAL" }) := by
      unfold classifyGroup
      exact mark_revisions_allFinal _ hdm
    rw [hform]
    intro o ho
    obtain ⟨a, _, rfl⟩ := List.mem_map.mp ho
    exact ⟨rfl, rfl⟩

theorem periodRows_revised (batch : List VObs) (p : Nat)
    (h2 : 2 ≤ (periodRows batch p).length)
    (hd : 2 ≤ ((vals (periodRows batch p)).dedup).length) :
    (∀ o ∈ periodRows batch p, o.is_revised = true) ∧
    (∀ i, ∀ hi : i < (periodRows batch p).length,
      ((periodRows batch p).get ⟨i, hi⟩).revision_type =
        (if i = 0 then "PRELIMINARY"
         else if i = (periodRows batch p).length - 1 then "FINAL"
         else "REVISED")) := by
  rcases periodRows_decomp batch p with hnil | ⟨g, hg, hkey, heq⟩
  · rw [hnil] at h2
    simp at h2
  · rw [heq] at h2 hd ⊢
    have hcgl := classifyGroup_length g
    have hmcl := markCurrentGroup_length g
    have h1 : (markCurrentGroup g).length ≠ 1 := by omega
    have hdm : 1 < ((vals (markCurrentGroup g)).dedup).length := by
      rw [vals_markCurrentGroup]
      rw [vals_classifyGroup] at hd
      omega
    have hzip : classifyGroup g =
        List.zipWith
          (fun o t => { o with is_revised := true, revision_type := t })
          (markCurrentGroup g) (revTypes (markCurrentGroup g).length) := by
      unfold classifyGroup
      exact mark_revisions_revised _ h1 hdm
    constructor
    · intro o ho
      rw [hzip] at ho
      obtain ⟨j, hj⟩ := List.mem_iff_getElem?.mp ho
      obtain ⟨x, t, hx, ht, hfxy⟩ := List.getElem?_zipWith_eq_some.mp hj
      rw [← hfxy]
    · intro i hi
      have hin : i < (markCurrentGroup g).length := by omega
      have h2m : 2 ≤ (markCurrentGroup g).length := by omega
      have hsome : (classifyGroup g)[i]? =
          some { (markCurrentGroup g).get ⟨i, hin⟩ with
                  is_revised := true,
                  revision_type :=
                    (if i = 0 then "PRELIMINARY"
                     else if i = (markCurrentGroup g).length - 1 then "FINAL"
                     else "REVISED") } := by
        rw [hzip, List.getElem?_zipWith]
        rw [List.getElem?_eq_getElem hin]
        rw [revTypes_getElem? (markCurrentGroup g).length i h2m hin]
        simp
      have hgetEq : (classifyGroup g)[i]? =
          some ((classifyGroup g).get ⟨i, hi⟩) := by
        rw [List.getElem?_eq_getElem hi]
        simp
      rw [hgetEq] at hsome
      have hel := Option.some.inj hsome
      rw [hel, show (markCurrentGroup g).length - 1 =
        (classifyGroup g).length - 1 from by omega]

/-- C1: in the classified output of any batch, each period behaves as the
classifier intends: the rows of the period are listed in ascending vintage
order; a period with exactly one vintage row is FINAL and not revised; a
period with two or more rows all sharing one distinct value has every row
FINAL and not revised; a period with two or more rows and at least two
distinct values has its earliest row PRELIMINARY, its latest row FINAL,
every intermediate row REVISED, and is_revised true on every row of the
period. -/
theorem classify_revision_classes (batch : List VObs) (p : Nat) :
    List.Pairwise (fun a b => a.version_date ≤ b.version_date)
      (periodRows batch p) ∧
    ((periodRows batch p).length = 1 →
      ∀ o ∈ periodRows batch p,
        o.revision_type = "FINAL" ∧ o.is_revised = false) ∧
    (2 ≤ (periodRows batch p).length →
      ((vals (periodRows batch p)).dedup).length = 1 →
      ∀ o ∈ periodRows batch p,
        o.revision_type = "FINAL" ∧ o.is_revised = false) ∧
    (2 ≤ (periodRows batch p).length →
      2 ≤ ((vals (periodRows batch p)).dedup).length →
      (∀ o ∈ periodRows batch p, o.is_revised = true) ∧
      (∀ i, ∀ hi : i < (periodRows batch p).length,
        ((periodRows batch p).get ⟨i, hi⟩).revision_type =
          (if i = 0 then "PRELIMINARY"
           else if i = (periodRows batch p).length - 1 then "FINAL"
           else "REVISED"))) :=
  ⟨periodRows_version_sorted batch p,
    fun h1 => periodRows_len_one batch p h1,
    fun h2 hd => periodRows_all_same batch p h2 hd,
    fun h2 hd => periodRows_revised batch p h2 hd⟩

theorem classify_revision_classes_witness :
    (2 ≤ (periodRows fixtureC1 0).length ∧
      2 ≤ ((vals (periodRows fixtureC1 0)).dedup).length) ∧
    ((∀ o ∈ periodRows fixtureC1 0, o.is_revised = true) ∧
      (∀ i, ∀ hi : i < (periodRows fixtureC1 0).length,
        ((periodRows fixtureC1 0).get ⟨i, hi⟩).revision_type =
          (if i = 0 then "PRELIMINARY"
           else if i = (periodRows fixtureC1 0).length - 1 then "FINAL"
           else "REVISED"))) :=
  ⟨⟨by decide, by decide⟩,
    (classify_revision_classes fixtureC1 0).2.2.2 (by decide) (by decide)⟩

/-- C2: in the classified output of any batch, each period has at most
one row with is_current true, and any such row carries the greatest
version_date among the rows of that period. -/
theorem classify_at_most_one_current (batch : List VObs) (p : Nat) :
    ((periodRows batch p).filter (fun o => o.is_current)).length ≤ 1 ∧
    (∀ o ∈ periodRows batch p, o.is_current = true →
      ∀ o2 ∈ periodRows batch p, o2.version_date ≤ o.version_date) := by
  rcases periodRows_decomp batch p with hnil | ⟨g, hg, hkey, heq⟩
  · rw [hnil]
    exact ⟨by simp, fun o ho => by simp at ho⟩
  · rw [heq]
    have hgne : g ≠ [] := groupRuns_ne_nil _ g hg
    constructor
    · rw [classifyGroup_filter_one g hgne]
    · intro o ho hcur o2 ho2
      obtain ⟨j, hj⟩ := List.mem_iff_getElem?.mp ho
      have hic := classifyGroup_is_current g j
      rw [hj] at hic
      cases hgj : g[j]? with
      | none =>
        rw [hgj] at hic
        simp at hic
      | some a =>
        rw [hgj] at hic
        simp only [Option.map_some'] at hic
        have hcurk : o.is_current =
            decide (j = firstMaxIdx (maxVersion g) g) := Option.some.inj hic
        have hjeq : j = firstMaxIdx (maxVersion g) g := by
          rw [hcur] at hcurk
          exact of_decide_eq_true hcurk.symm
        have hverpres := classifyGroup_preserves VObs.version_date
          (fun o b t => rfl) (fun o b => rfl) g j
        rw [hj, hgj] at hverpres
        simp only [Option.map_some'] at hverpres
        have hov : o.version_date = a.version_date := Option.some.inj hverpres
        have hm : ∃ x ∈ g, x.version_date = maxVersion g :=
          maxVersion_attained g hgne
        have hfv := firstMaxIdx_version (maxVersion g) g hm
        rw [← hjeq, hgj] at hfv
        simp only [Option.map_some'] at hfv
        have hav : a.version_date = maxVersion g := Option.some.inj hfv
        obtain ⟨j2, hj2⟩ := List.mem_iff_getElem?.mp ho2
        have hpres2 := classifyGroup_preserves VObs.version_date
          (fun o b t => rfl) (fun o b => rfl) g j2
        rw [hj2] at hpres2
        cases hgj2 : g[j2]? with
        | none =>
          rw [hgj2] at hpres2
          simp at hpres2
        | some a2 =>
          rw [hgj2] at hpres2
          simp only [Option.map_some'] at hpres2
          have ho2v : o2.version_date = a2.version_date :=
            Option.some.inj hpres2
          have ha2le := maxVersion_ge g a2 (mem_of_getElem?VObs hgj2)
          omega

theorem classify_at_most_one_current_witness :
    ((periodRows fixtureC2 0).filter (fun o => o.is_current)).length ≤ 1 ∧
    (∀ o2 ∈ periodRows fixtureC2 0,
      o2.version_date ≤ (⟨0, 2, 6, true, true, "FINAL"⟩ : VObs).version_date) :=
  ⟨(classify_at_most_one_current fixtureC2 0).1,
    (classify_at_most_one_current fixtureC2 0).2
      ⟨0, 2, 6, true, true, "FINAL"⟩ (by decide) (by decide)⟩

theorem firstMaxIdx_last_of_unique :
    ∀ (g : List VObs) (m : Nat), g ≠ [] →
      List.Pairwise (fun a b => a.version_date ≤ b.version_date) g →
      (∀ o ∈ g, o.version_date ≤ m) →
      (g.map VObs.version_date).count m = 1 →
      firstMaxIdx m g = g.length - 1 := by
  intro g
  induction g with
  | nil => intro m h; exact absurd rfl h
  | cons o os ih =>
    intro m _ hsort hbound hcount
    obtain ⟨hhead, hsort2⟩ := List.pairwise_cons.mp hsort
    cases os with
    | nil =>
      have hom : o.version_date = m := by
        by_contra hne
        rw [List.map_cons, List.map_nil, List.count_cons] at hcount
        simp [hne] at hcount
      unfold firstMaxIdx
      rw [if_pos (by simpa using hom)]
      simp
    | cons o2 os2 =>
      have hone : o.version_date ≠ m := by
        intro hom
        have h2le : o.version_date ≤ o2.version_date :=
          hhead o2 (List.mem_cons_self _ _)
        have h2ge : o2.version_date ≤ m :=
          hbound o2 (List.mem_cons_of_mem _ (List.mem_cons_self _ _))
        have h2m : o2.version_date = m := by omega
        rw [List.map_cons, List.count_cons, List.map_cons,
          List.count_cons] at hcount
        simp [hom, h2m] at hcount
      unfold firstMaxIdx
      rw [if_neg (by simpa using hone)]
      have hcount2 : ((o2 :: os2).map VObs.version_date).count m = 1 := by
        rw [List.map_cons, List.count_cons] at hcount
        simpa [hone] using hcount
      have hrec := ih m (List.cons_ne_nil _ _) hsort2
        (fun x hx => hbound x (List.mem_cons_of_mem _ hx)) hcount2
      simp only [List.length_cons] at hrec ⊢
      omega

/-- C5 (amended): the classifier sorts the batch by period_start and
version_date with a stable sort (it is a permutation of the input,
sorted on the key pair, preserving input order of equal-key rows), and
within each period group it sets is_current on exactly one row: the
first row of the sorted group attaining the maximum version_date.
When the maximum version_date is attained only once this row is the
last element of the sorted group; under a tie at the maximum it is the
first of the tied rows rather than the last element. -/
theorem classify_sort_and_current_marking (batch : List VObs) :
    List.Perm (sortVintages batch) batch ∧
    List.Pairwise (fun a b => vLeb a b = true) (sortVintages batch) ∧
    (∀ v : Nat × Nat,
      (sortVintages batch).filter
          (fun a => decide ((a.period_start, a.version_date) = v)) =
        batch.filter
          (fun a => decide ((a.period_start, a.version_date) = v))) ∧
    (∀ g ∈ groupRuns (sortVintages batch),
      firstMaxIdx (maxVersion g) g < g.length ∧
      (∀ j, ((classifyGroup g)[j]?).map VObs.is_current =
        (g[j]?).map (fun _ => decide (j = firstMaxIdx (maxVersion g) g))) ∧
      ((g[firstMaxIdx (maxVersion g) g]?).map VObs.version_date =
        some (maxVersion g)) ∧
      (∀ j < firstMaxIdx (maxVersion g) g,
        (g[j]?).map VObs.version_date ≠ some (maxVersion g)) ∧
      ((g.map VObs.version_date).count (maxVersion g) = 1 →
        firstMaxIdx (maxVersion g) g = g.length - 1)) := by
  refine ⟨sortVintages_perm batch, sortVintages_sorted batch,
    sortVintages_stable batch, ?_⟩
  intro g hg
  have hgne : g ≠ [] := groupRuns_ne_nil _ g hg
  have hm : ∃ x ∈ g, x.version_date = maxVersion g :=
    maxVersion_attained g hgne
  refine ⟨firstMaxIdx_lt_length (maxVersion g) g hm,
    classifyGroup_is_current g,
    firstMaxIdx_version (maxVersion g) g hm,
    fun j hj => firstMaxIdx_before (maxVersion g) g j hj,
    ?_⟩
  intro hcount
  exact firstMaxIdx_last_of_unique g (maxVersion g) hgne
    (group_version_sorted batch g hg) (maxVersion_ge g) hcount

theorem classify_sort_and_current_marking_witness :
    List.Perm (sortVintages fixtureC5) fixtureC5 ∧
    (firstMaxIdx (maxVersion fixtureC5) fixtureC5 < fixtureC5.length ∧
      (∀ j, ((classifyGroup fixtureC5)[j]?).map VObs.is_current =
        (fixtureC5[j]?).map
          (fun _ => decide (j = firstMaxIdx (maxVersion fixtureC5) fixtureC5))) ∧
      ((fixtureC5[firstMaxIdx (maxVersion fixtureC5) fixtureC5]?).map
          VObs.version_date = some (maxVersion fixtureC5)) ∧
      (∀ j < firstMaxIdx (maxVersion fixtureC5) fixtureC5,
        (fixtureC5[j]?).map VObs.version_date ≠ some (maxVersion fixtureC5)) ∧
      ((fixtureC5.map VObs.version_date).count (maxVersion fixtureC5) = 1 →
        firstMaxIdx (maxVersion fixtureC5) fixtureC5 =
          fixtureC5.length - 1)) :=
  ⟨(classify_sort_and_current_marking fixtureC5).1,
    (classify_sort_and_current_marking fixtureC5).2.2.2 fixtureC5 (by decide)⟩

/-- C5 counterexample: both rows of this batch form one period group
and share the vintage date 7; the classifier leaves is_current on the
first row of the sorted group, so it is not set on the last element of
the group, contradicting the claim that the last element of each
sorted group is the one marked. -/
theorem classify_current_not_last_on_tie :
    (classify fixtureC5).map VObs.period_start = [0, 0] ∧
    (classify fixtureC5).map VObs.version_date = [7, 7] ∧
    (classify fixtureC5).map VObs.is_current = [true, false] := by decide

/-! ## Theorems: incremental update filter -/

/-- C3 counterexample: the update filter does not implement the
claimed selected-iff-value-changed policy. With watermark 10, a batch
holding only a revised value for the stored period 5 is dropped
entirely by the code although the claimed policy selects it; and with
an unchanged stored period 5 plus a new period 15, the code re-emits
period 5 marked REVISED although the claimed policy rejects it. -/
theorem filterForUpdate_not_value_change_policy :
    filterForUpdate [⟨5, 2, false, "FINAL"⟩] (some 10) = [] ∧
    specSelects 10 (fun p => p == 5) ⟨5, 2, false, "FINAL"⟩ = true ∧
    filterForUpdate fixtureC3 (some 10) =
      [⟨15, 3, false, "FINAL"⟩, ⟨5, 1, true, "REVISED"⟩] ∧
    specSelects 10 (fun _ => false) ⟨5, 1, false, "FINAL"⟩ = false := by
  decide

/-- C3 (amended): in update-only mode with a stored watermark, a row
is selected exactly when its period_start exceeds the watermark, or
when the batch holds at least one row beyond the watermark, in which
case every row at or below the watermark is also re-selected, re-marked
REVISED, regardless of whether its value changed; when no row exceeds
the watermark nothing is selected. In particular a batch holding a
revised value for an already-stored period together with a new period
has both periods selected. -/
theorem filterForUpdate_update_semantics (df : List EIRow) (w : Nat) :
    (∀ r, r ∈ filterForUpdate df (some w) ↔
      ((r ∈ df ∧ w < r.period_start) ∨
        ((∃ s ∈ df, w < s.period_start) ∧
          ∃ s ∈ df, s.period_start ≤ w ∧ r = markRevised s))) ∧
    (∀ a ∈ df, ∀ b ∈ df, a.period_start ≤ w → w < b.period_start →
      (∃ r ∈ filterForUpdate df (some w),
        r.period_start = a.period_start) ∧
      (∃ r ∈ filterForUpdate df (some w),
        r.period_start = b.period_start)) := by
  have hdef : filterForUpdate df (some w) =
      (if (df.filter (fun x => decide (w < x.period_start))).length = 0 then []
       else if (df.filter (fun x => decide (x.period_start ≤ w))).length = 0
         then df.filter (fun x => decide (w < x.period_start))
       else df.filter (fun x => decide (w < x.period_start)) ++
         (df.filter (fun x => decide (x.period_start ≤ w))).map markRevised) :=
    rfl
  have hmain : ∀ r, r ∈ filterForUpdate df (some w) ↔
      ((r ∈ df ∧ w < r.period_start) ∨
        ((∃ s ∈ df, w < s.period_start) ∧
          ∃ s ∈ df, s.period_start ≤ w ∧ r = markRevised s)) := by
    intro r
    rw [hdef]
    by_cases hnew : (df.filter (fun x => decide (w < x.period_start))).length = 0
    · rw [if_pos hnew]
      have hempty : df.filter (fun x => decide (w < x.period_start)) = [] :=
        List.length_eq_zero.mp hnew
      simp only [List.not_mem_nil, false_iff]
      intro hRHS
      rcases hRHS with ⟨hrin, hrgt⟩ | ⟨⟨s, hs, hsgt⟩, _⟩
      · have hmem : r ∈ df.filter (fun x => decide (w < x.period_start)) :=
          List.mem_filter.mpr ⟨hrin, by simpa using hrgt⟩
        rw [hempty] at hmem
        simp at hmem
      · have hmem : s ∈ df.filter (fun x => decide (w < x.period_start)) :=
          List.mem_filter.mpr ⟨hs, by simpa using hsgt⟩
        rw [hempty] at hmem
        simp at hmem
    · rw [if_neg hnew]
      have hnewex : ∃ s ∈ df, w < s.period_start := by
        have hne : df.filter (fun x => decide (w < x.period_start)) ≠ [] := by
          intro hh
          rw [hh] at hnew
          exact hnew rfl
        obtain ⟨x, hx⟩ := List.exists_mem_of_ne_nil _ hne
        obtain ⟨hxdf, hxc⟩ := List.mem_filter.mp hx
        exact ⟨x, hxdf, by simpa using hxc⟩
      by_cases hex : (df.filter (fun x => decide (x.period_start ≤ w))).length = 0
      · rw [if_pos hex]
        constructor
        · intro hr
          obtain ⟨hrdf, hrc⟩ := List.mem_filter.mp hr
          exact Or.inl ⟨hrdf, by simpa using hrc⟩
        · intro hRHS
          rcases hRHS with ⟨hrdf, hrgt⟩ | ⟨_, ⟨s, hs, hsle, rfl⟩⟩
          · exact List.mem_filter.mpr ⟨hrdf, by simpa using hrgt⟩
          · have hmem : s ∈ df.filter (fun x => decide (x.period_start ≤ w)) :=
              List.mem_filter.mpr ⟨hs, by simpa using hsle⟩
            rw [List.length_eq_zero.mp hex] at hmem
            simp at hmem
      · rw [if_neg hex]
        constructor
        · intro hr
          rcases List.mem_append.mp hr with hr1 | hr2
          · obtain ⟨hrdf, hrc⟩ := List.mem_filter.mp hr1
            exact Or.inl ⟨hrdf, by simpa using hrc⟩
          · obtain ⟨s, hsf, rfl⟩ := List.mem_map.mp hr2
            obtain ⟨hsdf, hsc⟩ := List.mem_filter.mp hsf
            exact Or.inr ⟨hnewex, s, hsdf, by simpa using hsc, rfl⟩
        · intro hRHS
          rcases hRHS with ⟨hrdf, hrgt⟩ | ⟨_, ⟨s, hs, hsle, rfl⟩⟩
          · exact List.mem_append.mpr
              (Or.inl (List.mem_filter.mpr ⟨hrdf, by simpa using hrgt⟩))
          · exact List.mem_append.mpr
              (Or.inr (List.mem_map.mpr
                ⟨s, List.mem_filter.mpr ⟨hs, by simpa using hsle⟩, rfl⟩))
  refine ⟨hmain, ?_⟩
  intro a ha b hb hale hblt
  constructor
  · exact ⟨markRevised a,
      (hmain (markRevised a)).mpr (Or.inr ⟨⟨b, hb, hblt⟩, a, ha, hale, rfl⟩),
      rfl⟩
  · exact ⟨b, (hmain b).mpr (Or.inl ⟨hb, hblt⟩), rfl⟩

theorem filterForUpdate_update_semantics_witness :
    (∃ r ∈ filterForUpdate fixtureC3 (some 10), r.period_start = 5) ∧
    (∃ r ∈ filterForUpdate fixtureC3 (some 10), r.period_start = 15) :=
  (filterForUpdate_update_semantics fixtureC3 10).2
    ⟨5, 1, false, "FINAL"⟩ (by decide) ⟨15, 3, false, "FINAL"⟩ (by decide)
    (by decide) (by decide)

/-! ## Theorems: processor normalization, orchestration, configuration -/

/-- C6 (code evaluation): a treasury raw row with a missing yield
survives transform_data_treasury with yieldVal none — the dropna call
of treasury.py line 50 is commented out — and passes the treasury
update filter on its way to insertion; the economic transform by
contrast drops a row with a missing value, returning none when no row
remains. -/
theorem treasury_null_row_survives :
    transform_data_treasury [⟨5, none⟩] fixtureTreasuryInfo "DGS10" =
      some [treasuryRow fixtureTreasuryInfo "DGS10" ⟨5, none⟩] ∧
    (treasuryRow fixtureTreasuryInfo "DGS10" ⟨5, none⟩).yieldVal = none ∧
    filter_for_updates_treasury
        [treasuryRow fixtureTreasuryInfo "DGS10" ⟨5, none⟩] (some 3) =
      [treasuryRow fixtureTreasuryInfo "DGS10" ⟨5, none⟩] ∧
    transform_data_economic [⟨5, 4, none, none⟩] fixtureEconInfo "GDP" =
      none := by
  decide

/-- C7: without the fail-fast flag the orchestrator attempts every
configured series, recording a success or failure outcome per series
and never propagating an error; with the fail-fast flag set, the first
failing series re-raises its error and aborts the run. -/
theorem process_partial_success_and_failfast :
    (∀ (cfg : List (String × EconInfo))
      (run : String → EconInfo → Except String Unit),
      process cfg run false =
        .ok (cfg.map (fun si => (si.1, okBool (run si.1 si.2))))) ∧
    (∀ (pre : List (String × EconInfo)) (s : String) (i : EconInfo)
      (rest : List (String × EconInfo))
      (run : String → EconInfo → Except String Unit) (e : String),
      (∀ q ∈ pre, okBool (run q.1 q.2) = true) →
      run s i = .error e →
      process (pre ++ (s, i) :: rest) run true = .error e) := by
  constructor
  · intro cfg run
    induction cfg with
    | nil => rfl
    | cons si rest ih =>
      obtain ⟨sid, info⟩ := si
      cases hrun : run sid info with
      | ok u =>
        have hstep : process ((sid, info) :: rest) run false =
            (process rest run false).map (fun l => (sid, true) :: l) := by
          conv_lhs => unfold process
          rw [hrun]
        rw [hstep, ih]
        simp [okBool, hrun, Except.map]
      | error e2 =>
        have hstep : process ((sid, info) :: rest) run false =
            (process rest run false).map (fun l => (sid, false) :: l) := by
          conv_lhs => unfold process
          rw [hrun]
          rfl
        rw [hstep, ih]
        simp [okBool, hrun, Except.map]
  · intro pre s i rest run e hpre hrun
    induction pre with
    | nil =>
      show process ((s, i) :: rest) run true = .error e
      unfold process
      rw [hrun]
      simp
    | cons q pre2 ih =>
      obtain ⟨qs, qi⟩ := q
      have hq : okBool (run qs qi) = true :=
        hpre (qs, qi) (List.mem_cons_self _ _)
      obtain ⟨u, hu⟩ : ∃ u, run qs qi = .ok u := by
        cases hr : run qs qi with
        | ok u => exact ⟨u, rfl⟩
        | error e2 =>
          rw [hr] at hq
          simp [okBool] at hq
      show process ((qs, qi) :: (pre2 ++ (s, i) :: rest)) run true = .error e
      unfold process
      rw [hu, ih (fun q2 hq2 => hpre q2 (List.mem_cons_of_mem _ hq2))]
      rfl

theorem process_partial_success_and_failfast_witness :
    process [("GDP", fixtureEconInfo), ("CPI", fixtureEconInfo)]
        (fun sid _ => if sid = "CPI" then .error "boom" else .ok ()) true =
      .error "boom" :=
  (process_partial_success_and_failfast).2 [("GDP", fixtureEconInfo)] "CPI"
    fixtureEconInfo []
    (fun sid _ => if sid = "CPI" then .error "boom" else .ok ()) "boom"
    (by decide) rfl

/-- C9: when the configuration CSV read fails, for a missing file or
any other error, get_series_config yields the empty mapping, and a
subsequent process call completes normally having attempted zero
series; the loading error never propagates to the caller. -/
theorem get_series_config_error_empty (msg : String)
    (run : String → EconInfo → Except String Unit) (b : Bool) :
    get_series_config (.error msg) = [] ∧
    process (get_series_config (.error msg)) run b = .ok [] :=
  ⟨rfl, rfl⟩

/-- C10: the date-yield pairs the treasury transform emits are exactly
the raw date-value pairs with the yield divided by 100 (up to the
final sort), so every emitted yield equals its raw value divided by
100; the economic transform passes every surviving value through
unchanged, so the unit conversion is specific to the treasury
category. -/
theorem treasury_divides_by_100 (raw : List TRawRow) (info : TreasuryInfo)
    (sid : String) (out : List TRow)
    (h : transform_data_treasury raw info sid = some out) :
    ((out.map (fun r => (r.date, r.yieldVal))).Perm
      (raw.map (fun r => (r.date, r.value.map (fun v => v / 100))))) ∧
    (∀ r ∈ out, ∃ s ∈ raw, r.date = s.date ∧
      r.yieldVal = s.value.map (fun v => v / 100)) ∧
    (∀ (eraw : List ERawRow) (einfo : EconInfo) (esid : String)
      (eout : List ERow),
      transform_data_economic eraw einfo esid = some eout →
      ∀ o ∈ eout, o.value ∈ eraw.map ERawRow.value) := by
  have hout : out = sortLe tLeb (raw.map (treasuryRow info sid)) := by
    unfold transform_data_treasury at h
    by_cases h0 : raw.length = 0
    · rw [if_pos h0] at h
      exact absurd h (by simp)
    · rw [if_neg h0] at h
      rw [if_neg (by simpa using h0)] at h
      exact (Option.some.inj h).symm
  have hperm : List.Perm out (raw.map (treasuryRow info sid)) := by
    rw [hout]
    exact sortLe_perm _ _
  have hpairs : (out.map (fun r => (r.date, r.yieldVal))).Perm
      (raw.map (fun r => (r.date, r.value.map (fun v => v / 100)))) := by
    have hp := hperm.map (fun r => (r.date, r.yieldVal))
    rw [List.map_map] at hp
    exact hp
  refine ⟨hpairs, ?_, ?_⟩
  · intro r hr
    have hm : (r.date, r.yieldVal) ∈
        raw.map (fun s => (s.date, s.value.map (fun v => v / 100))) :=
      hpairs.mem_iff.mp (List.mem_map_of_mem _ hr)
    obtain ⟨s, hs, heq⟩ := List.mem_map.mp hm
    exact ⟨s, hs, (congrArg Prod.fst heq).symm, (congrArg Prod.snd heq).symm⟩
  · intro eraw einfo esid eout he o ho
    have heout : eout = sortLe eLeb
        ((eraw.map (economicRow einfo esid)).filter
          (fun r => r.value.isSome)) := by
      unfold transform_data_economic at he
      by_cases h0 : eraw.length = 0
      · rw [if_pos h0] at he
        exact absurd he (by simp)
      · rw [if_neg h0] at he
        by_cases h1 : ((eraw.map (economicRow einfo esid)).filter
            (fun r => r.value.isSome)).length = 0
        · rw [if_pos h1] at he
          exact absurd he (by simp)
        · rw [if_neg h1] at he
          exact (Option.some.inj he).symm
    rw [heout] at ho
    have ho2 := (sortLe_perm eLeb _).mem_iff.mp ho
    have ho3 := (List.mem_filter.mp ho2).1
    obtain ⟨s, hs, rfl⟩ := List.mem_map.mp ho3
    exact List.mem_map_of_mem ERawRow.value hs

theorem treasury_divides_by_100_witness :
    (([treasuryRow fixtureTreasuryInfo "DGS10" ⟨1, some 8⟩].map
        (fun r => (r.date, r.yieldVal))).Perm
      (([⟨1, some 8⟩] : List TRawRow).map
        (fun r => (r.date, r.value.map (fun v => v / 100))))) :=
  (treasury_divides_by_100 [⟨1, some 8⟩] fixtureTreasuryInfo "DGS10"
    [treasuryRow fixtureTreasuryInfo "DGS10" ⟨1, some 8⟩] rfl).1

end MacroKit
